import Mathlib

/-!
Verification of the split-block Bloom filter subsystem of the parquet-go
repository (`bloom/filter.go`) against its natural-language specification.

The in-memory filter is a slice of 32-byte blocks; each block is eight
32-bit words.  `bloom/filter.go` is embedded directly; the helpers it calls
(`Block`, `fasthash1x64`, `filterInsert`, `filterCheck`, `filterInsertBulk`,
`bits.ByteCount`) live in files of the same repository that are not part of
the provided sources, so they are modelled from the specification text
(sections 4.1–4.3), as indicated on each definition.

Machine integers are embedded as `Nat` with explicit reduction modulo
`2 ^ 32` / `2 ^ 64` where the Go code performs 32- or 64-bit arithmetic,
and Go's `int32(...)` / `uint64(int32)` conversions are embedded as explicit
two's-complement conversions.  Go slice indexing panics when the index is
out of range; the `...Checked` variants return `Option` and yield `none`
exactly when the corresponding Go operation would panic.
-/

namespace ParquetBloom

/-- Modelled from the spec: the salt table of eight fixed 32-bit constants
(section 3 "Salt table"), one per word of a block.  The table lives in the
repository's `bloom/block.go`, which is not among the provided sources; the
values are the published parquet split-block Bloom filter salts that the
spec's byte-layout compatibility requirement (section 6) pins down. -/
def saltList : List Nat :=
  [0x47b6137b, 0x44974d91, 0x8824ad5b, 0xa2b7289d,
   0x705495c7, 0x2df1424b, 0x9efc4947, 0x5c6bfb31]

/-- Salt of word `i` of a block. -/
def salt (i : Fin 8) : Nat := saltList.getD i.val 0

/-- Modelled from the spec (section 4.1): bit position selected in word of
salt `s` by the 32-bit hash fragment `v`: the top 5 bits of the 32-bit
product `v * s`, i.e. `(v * s) >> 27` in `uint32` arithmetic. -/
def wordBit (v s : Nat) : Nat := ((v * s) % 2 ^ 32) >>> 27

/-- Single-bit mask for the selected bit position. -/
def wordMask (v s : Nat) : Nat := 1 <<< wordBit v s

/-- Test of bit `n` of a 32-bit word `w`, as the Go code writes it:
`(w >> n) & 1 != 0`. -/
def wordHas (w n : Nat) : Bool := (w >>> n) &&& 1 != 0

/-- A block: eight 32-bit words (`type Block [8]uint32`, 32 bytes). -/
abbrev Block := Fin 8 → Nat

/-- The zero block `Block{}`. -/
def zeroBlock : Block := fun _ => 0

/-- Modelled from the spec (section 4.1): `Block.Insert(v uint32)` sets, in
every word `i`, the bit selected by `v` and `salt[i]`, via bitwise OR. -/
def Block.Insert (b : Block) (v : Nat) : Block :=
  fun i => b i ||| wordMask v (salt i)

/-- Modelled from the spec (section 4.1): `Block.Check(v uint32)` is true
iff every word has its selected bit set. -/
def Block.Check (b : Block) (v : Nat) : Bool :=
  (List.finRange 8).all fun i => wordHas (b i) (wordBit v (salt i))

/-- Little-endian byte view of a 32-bit word. -/
def wordBytes (w : Nat) : List Nat :=
  [w % 256, (w >>> 8) % 256, (w >>> 16) % 256, (w >>> 24) % 256]

/-- Byte view of a block (`Block.Bytes`): the 8 words in order, each as 4
little-endian bytes — the in-memory layout that `unsafe.Slice` exposes. -/
def Block.Bytes (b : Block) : List Nat :=
  wordBytes (b 0) ++ wordBytes (b 1) ++ wordBytes (b 2) ++ wordBytes (b 3) ++
  wordBytes (b 4) ++ wordBytes (b 5) ++ wordBytes (b 6) ++ wordBytes (b 7)

/-- Reassembly of a 32-bit word from 4 little-endian bytes. -/
def wordOfBytes (b0 b1 b2 b3 : Nat) : Nat :=
  b0 % 256 + ((b1 % 256) <<< 8) + ((b2 % 256) <<< 16) + ((b3 % 256) <<< 24)

/-- Block `i` of a byte buffer reinterpreted in place as blocks: word `j`
of block `i` occupies bytes `32*i + 4*j .. 32*i + 4*j + 3`, little-endian. -/
def bytesToBlock (data : List Nat) (i : Nat) : Block :=
  fun j =>
    wordOfBytes (data.getD (32 * i + 4 * j.val) 0)
      (data.getD (32 * i + 4 * j.val + 1) 0)
      (data.getD (32 * i + 4 * j.val + 2) 0)
      (data.getD (32 * i + 4 * j.val + 3) 0)

/-- Go's `int32(n)` applied to a nonnegative integer (such as a slice
length): truncation to 32 bits, read back in two's complement. -/
def int32ofNat (n : Nat) : Int := (((n + 2 ^ 31) % 2 ^ 32 : Nat) : Int) - 2 ^ 31

/-- Go's `uint64(s)` applied to an `int32` value: two's-complement
reinterpretation modulo `2 ^ 64` (sign extension for negative values). -/
def uint64ofInt32 (i : Int) : Nat := (i % 2 ^ 64).toNat

/-- Modelled from the spec (section 4.2): `fasthash1x64(value uint64,
scale int32) uint64` — the multiply-shift block-selection reduction: the
high 32 bits of `value`, multiplied by `scale` converted to `uint64`, in
64-bit arithmetic, keeping the high 32 bits of the product.  The function
lives in the repository's `bloom/block.go`, not among the provided
sources; the conversion of `scale` mirrors the `int32` arguments at both
call sites in `bloom/filter.go`. -/
def fasthash1x64 (value : Nat) (scale : Int) : Nat :=
  (((value >>> 32) * uint64ofInt32 scale) % 2 ^ 64) >>> 32

/-- `SplitBlockFilter` is a slice of blocks. -/
abbrev SplitBlockFilter := List Block

/-- Index of the block that hash `x` selects in filter `f`:
`fasthash1x64(x, int32(len(f)))`, the index used by `SplitBlockFilter.Block`,
`Insert` and `Check`. -/
def SplitBlockFilter.blockIndex (f : SplitBlockFilter) (x : Nat) : Nat :=
  fasthash1x64 x (int32ofNat f.length)

/-- `Reset` zeroes every block of the filter in place. -/
def SplitBlockFilter.Reset (f : SplitBlockFilter) : SplitBlockFilter :=
  f.map fun _ => zeroBlock

/-- Modelled from the spec (section 4.3): `Insert(x)` selects the block for
`x` and inserts the low 32 bits of `x` into it (`filterInsert` of the
repository's `bloom/filter_default.go` is not among the provided sources).
Go panics when the index is out of range — which happens exactly on a
zero-length filter for in-range lengths, see `InsertChecked`; on an
in-range index this total version agrees with the Go code. -/
def SplitBlockFilter.Insert (f : SplitBlockFilter) (x : Nat) : SplitBlockFilter :=
  f.set (f.blockIndex x) (Block.Insert (f.getD (f.blockIndex x) zeroBlock) (x % 2 ^ 32))

/-- `Insert` with Go's bounds check made explicit: `none` exactly when the
block index is out of range, where the Go program panics. -/
def SplitBlockFilter.InsertChecked (f : SplitBlockFilter) (x : Nat) :
    Option SplitBlockFilter :=
  if f.blockIndex x < f.length then some (f.Insert x) else none

/-- Modelled from the spec (section 4.3): `Check(x)` selects the block for
`x` and checks the low 32 bits of `x` against it (`filterCheck` is not
among the provided sources). -/
def SplitBlockFilter.Check (f : SplitBlockFilter) (x : Nat) : Bool :=
  Block.Check (f.getD (f.blockIndex x) zeroBlock) (x % 2 ^ 32)

/-- `Check` with Go's bounds check made explicit: `none` exactly when the
block index is out of range, where the Go program panics. -/
def SplitBlockFilter.CheckChecked (f : SplitBlockFilter) (x : Nat) : Option Bool :=
  if f.blockIndex x < f.length then some (f.Check x) else none

/-- Modelled from the spec (section 4.3): `InsertBulk(xs)` is semantically
the sequential insertion of the values in order (`filterInsertBulk` is not
among the provided sources). -/
def SplitBlockFilter.InsertBulk (f : SplitBlockFilter) (xs : List Nat) :
    SplitBlockFilter :=
  xs.foldl SplitBlockFilter.Insert f

/-- `InsertBulk` with Go's bounds checks made explicit. -/
def SplitBlockFilter.InsertBulkChecked (f : SplitBlockFilter) (xs : List Nat) :
    Option SplitBlockFilter :=
  xs.foldlM SplitBlockFilter.InsertChecked f

/-- `Bytes` serializes the filter: the blocks' bytes in order (the Go code
returns the backing memory itself, whose layout this is). -/
def SplitBlockFilter.Bytes (f : SplitBlockFilter) : List Nat :=
  (f.map Block.Bytes).flatten

/-- `MakeSplitBlockFilter(data)` reinterprets a byte buffer in place as a
filter of `len(data) / BlockSize` blocks (`n := len(data) / BlockSize`):
any trailing bytes beyond a whole number of blocks are dropped. -/
def MakeSplitBlockFilter (data : List Nat) : SplitBlockFilter :=
  (List.range (data.length / 32)).map (bytesToBlock data)

/-- Modelled from the spec (section 4.3 "Sizing"): `bits.ByteCount` of the
repository's `internal/bits` package (not among the provided sources) is
the byte count holding `bitCount` bits, `ceil(bitCount / 8)`. -/
def ByteCount (bitCount : Nat) : Nat := (bitCount + 7) / 8

/-- `NumSplitBlocksOf(numValues int64, bitsPerValue uint) int`: byte count
of `uint(numValues) * bitsPerValue` bits — a 64-bit unsigned product, hence
the reduction modulo `2 ^ 64` — rounded up to whole 32-byte blocks.
`numValues` is a nonnegative `int64`, embedded as a `Nat`. -/
def NumSplitBlocksOf (numValues bitsPerValue : Nat) : Nat :=
  let numBytes := ByteCount ((numValues * bitsPerValue) % 2 ^ 64)
  (numBytes + (32 - 1)) / 32

/-- Block index used by the disk probe `CheckSplitBlock` for a filter of
`n` bytes: `fasthash1x64(x, int32(n/BlockSize))`. -/
def diskBlockIndex (n x : Nat) : Nat := fasthash1x64 x (int32ofNat (n / 32))

/-- `CheckSplitBlock(r io.ReaderAt, n int64, x uint64) (bool, error)` with
the pool-acquired scratch block passed explicitly (the Go code takes it
from a shared `sync.Pool`, so its prior contents are arbitrary).  The
source `src` stands for the `io.ReaderAt`: a ranged read of 32 bytes at
offset `off` yields `(src.drop off).take 32` and reports an error iff
fewer than 32 bytes were available (the `io.ReaderAt` contract).  The
read overwrites the prefix of the scratch block's bytes that was actually
read; `Block.Check` then runs on the resulting block, and its result is
returned together with the error flag. -/
def CheckSplitBlock (scratch : Block) (src : List Nat) (n x : Nat) : Bool × Bool :=
  let off := (32 * diskBlockIndex n x) % 2 ^ 64
  let bytesRead := (src.drop off).take 32
  let blk := bytesToBlock (bytesRead ++ (Block.Bytes scratch).drop bytesRead.length) 0
  (Block.Check blk (x % 2 ^ 32), bytesRead.length < 32)

/-- Spec-side formulation of block selection, following the words of
section 4.2 for comparison with the implementation path: "take the high 32
bits of `h`, multiply by `n` as unsigned 64-bit integers, and take the
high 32 bits of the 64-bit product as the block index". -/
def blockSelectionSpec (h n : Nat) : Nat := ((h >>> 32) * n) >>> 32

/-- Spec-side ceiling division, following the words of the sizing claim. -/
def ceilDiv (a b : Nat) : Nat := (a + b - 1) / b

/-- Mutating operations a caller can run against a filter after an
insertion: further `Insert`, `InsertBulk` or `Check` calls. -/
inductive FilterOp where
  | insertOp (x : Nat)
  | insertBulkOp (xs : List Nat)
  | checkOp (x : Nat)

/-- One filter API call, with Go's bounds checks explicit (`none` = the Go
program panics).  A `Check` call leaves the filter unchanged. -/
def applyOp (f : SplitBlockFilter) : FilterOp → Option SplitBlockFilter
  | .insertOp x => f.InsertChecked x
  | .insertBulkOp xs => f.InsertBulkChecked xs
  | .checkOp x => (f.CheckChecked x).map fun _ => f

/-- A sequence of filter API calls. -/
def applyOps (f : SplitBlockFilter) (ops : List FilterOp) : Option SplitBlockFilter :=
  ops.foldlM applyOp f

/-- Well-formedness of a block: its words are 32-bit values, as Go's
`uint32` representation guarantees. -/
def BlockWF (b : Block) : Prop := ∀ i : Fin 8, b i < 2 ^ 32

/-- Well-formedness of a filter: every block is well-formed. -/
def FilterWF (f : SplitBlockFilter) : Prop := ∀ b ∈ f, BlockWF b

/-- Bit-inclusion of blocks: every bit set in `b` is set in `b'`.  Insertion
only ORs bits in, so filter mutation is monotone for this order. -/
def Block.le (b b' : Block) : Prop :=
  ∀ (i : Fin 8) (n : Nat), wordHas (b i) n = true → wordHas (b' i) n = true

/-- Bit-inclusion of filters of the same length, block by block. -/
def FilterLE (f g : SplitBlockFilter) : Prop :=
  f.length = g.length ∧
    ∀ i : Nat, Block.le (f.getD i zeroBlock) (g.getD i zeroBlock)

/-! ### Word- and block-level lemmas -/

theorem wordHas_eq_testBit (w n : Nat) : wordHas w n = Nat.testBit w n := by
  simp only [wordHas, Nat.testBit, Nat.land_comm]

theorem wordHas_lor (a b n : Nat) :
    wordHas (a ||| b) n = (wordHas a n || wordHas b n) := by
  simp only [wordHas_eq_testBit, Nat.testBit_lor]

theorem wordHas_zero (n : Nat) : wordHas 0 n = false := by
  simp only [wordHas_eq_testBit, Nat.zero_testBit]

theorem wordHas_mask_self (v s : Nat) : wordHas (wordMask v s) (wordBit v s) = true := by
  simp only [wordHas_eq_testBit, wordMask, Nat.shiftLeft_eq, one_mul,
    Nat.testBit_two_pow_self]

theorem Block.le_refl (b : Block) : Block.le b b := fun _ _ h => h

theorem Block.le_trans {a b c : Block} (h1 : Block.le a b) (h2 : Block.le b c) :
    Block.le a c := fun i n h => h2 i n (h1 i n h)

theorem Block.le_insert (b : Block) (v : Nat) : Block.le b (Block.Insert b v) := by
  intro i n h
  simp only [Block.Insert, wordHas_lor, h, Bool.true_or]

theorem Block.check_eq_true_iff (b : Block) (v : Nat) :
    Block.Check b v = true ↔ ∀ i : Fin 8, wordHas (b i) (wordBit v (salt i)) = true := by
  simp only [Block.Check, List.all_eq_true]
  exact ⟨fun h i => h i (List.mem_finRange i), fun h i _ => h i⟩

theorem Block.check_mono {b b' : Block} (h : Block.le b b') {v : Nat}
    (hc : Block.Check b v = true) : Block.Check b' v = true := by
  rw [Block.check_eq_true_iff] at hc ⊢
  exact fun i => h i _ (hc i)

theorem Block.check_insert_self (b : Block) (v : Nat) :
    Block.Check (Block.Insert b v) v = true := by
  rw [Block.check_eq_true_iff]
  intro i
  simp only [Block.Insert, wordHas_lor, wordHas_mask_self, Bool.or_true]

theorem Block.check_zero (v : Nat) : Block.Check zeroBlock v = false := by
  rw [Bool.eq_false_iff]
  intro h
  have h0 := (Block.check_eq_true_iff _ _).mp h 0
  rw [zeroBlock, wordHas_zero] at h0
  exact Bool.false_ne_true h0

theorem zeroBlock_wf : BlockWF zeroBlock := fun _ => by norm_num [zeroBlock]

theorem blockWF_insert {b : Block} (h : BlockWF b) (v : Nat) :
    BlockWF (Block.Insert b v) := by
  intro i
  have hb := h i
  have hm : wordMask v (salt i) < 2 ^ 32 := by
    have hbit : wordBit v (salt i) < 32 := by
      have : (v * salt i) % 2 ^ 32 < 2 ^ 32 := Nat.mod_lt _ (by norm_num)
      simp only [wordBit, Nat.shiftRight_eq_div_pow]
      omega
    simp only [wordMask, Nat.shiftLeft_eq, one_mul]
    calc 2 ^ wordBit v (salt i) ≤ 2 ^ 31 := Nat.pow_le_pow_right (by norm_num) (by omega)
      _ < 2 ^ 32 := by norm_num
  have := Nat.or_lt_two_pow hb hm
  simpa [Block.Insert] using this

/-! ### Conversion lemmas for the `int32` / `uint64` casts -/

theorem uint64ofInt32_int32ofNat {n : Nat} (h : n < 2 ^ 31) :
    uint64ofInt32 (int32ofNat n) = n := by
  unfold uint64ofInt32 int32ofNat
  have h1 : (n + 2 ^ 31) % 2 ^ 32 = n + 2 ^ 31 := Nat.mod_eq_of_lt (by omega)
  rw [h1]
  omega

theorem fasthash1x64_lt_2_32 (v : Nat) (s : Int) : fasthash1x64 v s < 2 ^ 32 := by
  unfold fasthash1x64
  rw [Nat.shiftRight_eq_div_pow]
  have : ((v >>> 32) * uint64ofInt32 s) % 2 ^ 64 < 2 ^ 64 := Nat.mod_lt _ (by norm_num)
  omega

theorem fasthash1x64_eq {x n : Nat} (hx : x < 2 ^ 64) (hn : n < 2 ^ 31) :
    fasthash1x64 x (int32ofNat n) = (x >>> 32) * n / 2 ^ 32 := by
  unfold fasthash1x64
  rw [uint64ofInt32_int32ofNat hn]
  have hhi : x >>> 32 < 2 ^ 32 := by
    rw [Nat.shiftRight_eq_div_pow]
    omega
  have hprod : x >>> 32 * n < 2 ^ 64 := by
    calc x >>> 32 * n < 2 ^ 32 * 2 ^ 31 :=
          Nat.mul_lt_mul_of_lt_of_le hhi (Nat.le_of_lt hn) (by norm_num)
      _ ≤ 2 ^ 64 := by norm_num
  rw [Nat.mod_eq_of_lt hprod, Nat.shiftRight_eq_div_pow]

theorem fasthash1x64_lt {x n : Nat} (hx : x < 2 ^ 64) (h0 : 0 < n) (hn : n < 2 ^ 31) :
    fasthash1x64 x (int32ofNat n) < n := by
  rw [fasthash1x64_eq hx hn]
  have hhi : x >>> 32 < 2 ^ 32 := by
    rw [Nat.shiftRight_eq_div_pow]
    omega
  have : x >>> 32 * n < 2 ^ 32 * n := Nat.mul_lt_mul_of_lt_of_le hhi (Nat.le_refl n) h0
  rw [Nat.div_lt_iff_lt_mul (by norm_num : 0 < 2 ^ 32)]
  calc x >>> 32 * n < 2 ^ 32 * n := this
    _ = n * 2 ^ 32 := Nat.mul_comm _ _

theorem fasthash1x64_scale_zero (x : Nat) : fasthash1x64 x (int32ofNat 0) = 0 := by
  unfold fasthash1x64 int32ofNat uint64ofInt32
  norm_num

/-! ### List `getD` / `set` helpers -/

theorem getD_set_self {α : Type} {l : List α} {i : Nat} {a d : α} (h : i < l.length) :
    (l.set i a).getD i d = a := by
  rw [List.getD_eq_getElem?_getD, List.getElem?_set_self h, Option.getD_some]

theorem getD_set_ne {α : Type} {l : List α} {i j : Nat} {a d : α} (h : i ≠ j) :
    (l.set i a).getD j d = l.getD j d := by
  rw [List.getD_eq_getElem?_getD, List.getElem?_set_ne h, ← List.getD_eq_getElem?_getD]

/-! ### Filter-level lemmas -/

theorem length_insert (f : SplitBlockFilter) (x : Nat) :
    (f.Insert x).length = f.length := by
  simp [SplitBlockFilter.Insert]

theorem blockIndex_length_eq {f g : SplitBlockFilter} (h : f.length = g.length)
    (x : Nat) : f.blockIndex x = g.blockIndex x := by
  simp [SplitBlockFilter.blockIndex, h]

theorem blockIndex_insert (f : SplitBlockFilter) (x y : Nat) :
    (f.Insert x).blockIndex y = f.blockIndex y :=
  blockIndex_length_eq (length_insert f x) y

theorem filterLE_refl (f : SplitBlockFilter) : FilterLE f f :=
  ⟨rfl, fun _ => Block.le_refl _⟩

theorem filterLE_trans {f g h : SplitBlockFilter} (h1 : FilterLE f g)
    (h2 : FilterLE g h) : FilterLE f h :=
  ⟨h1.1.trans h2.1, fun i => Block.le_trans (h1.2 i) (h2.2 i)⟩

theorem filterLE_insert (f : SplitBlockFilter) (x : Nat) : FilterLE f (f.Insert x) := by
  refine ⟨(length_insert f x).symm, fun i => ?_⟩
  by_cases hlen : f.blockIndex x < f.length
  · by_cases hi : f.blockIndex x = i
    · subst hi
      rw [SplitBlockFilter.Insert, getD_set_self hlen]
      exact Block.le_insert _ _
    · rw [SplitBlockFilter.Insert, getD_set_ne hi]
      exact Block.le_refl _
  · rw [SplitBlockFilter.Insert, List.set_eq_of_length_le (by omega)]
    exact Block.le_refl _

theorem check_mono_filter {f g : SplitBlockFilter} (h : FilterLE f g) {x : Nat}
    (hc : f.Check x = true) : g.Check x = true := by
  rw [SplitBlockFilter.Check] at hc ⊢
  rw [← blockIndex_length_eq h.1 x]
  exact Block.check_mono (h.2 (f.blockIndex x)) hc

theorem filter_check_insert_self {f : SplitBlockFilter} {x : Nat}
    (h : f.blockIndex x < f.length) : (f.Insert x).Check x = true := by
  rw [SplitBlockFilter.Check, blockIndex_insert, SplitBlockFilter.Insert,
    getD_set_self h]
  exact Block.check_insert_self _ _

theorem insertChecked_some {f f' : SplitBlockFilter} {x : Nat}
    (h : f.InsertChecked x = some f') :
    f' = f.Insert x ∧ f.blockIndex x < f.length := by
  rw [SplitBlockFilter.InsertChecked] at h
  by_cases hlt : f.blockIndex x < f.length
  · rw [if_pos hlt] at h
    exact ⟨(Option.some_inj.mp h).symm, hlt⟩
  · rw [if_neg hlt] at h
    exact absurd h (Option.some_ne_none _).symm

theorem insertBulkChecked_le {xs : List Nat} :
    ∀ {f g : SplitBlockFilter}, f.InsertBulkChecked xs = some g → FilterLE f g := by
  induction xs with
  | nil =>
    intro f g h
    rw [SplitBlockFilter.InsertBulkChecked, List.foldlM_nil] at h
    cases h
    exact filterLE_refl _
  | cons x xs ih =>
    intro f g h
    rw [SplitBlockFilter.InsertBulkChecked, List.foldlM_cons] at h
    cases hstep : f.InsertChecked x with
    | none => rw [hstep] at h; cases h
    | some f1 =>
      rw [hstep] at h
      have h1 := (insertChecked_some hstep).1
      subst h1
      exact filterLE_trans (filterLE_insert f x) (ih h)

theorem applyOp_le {f g : SplitBlockFilter} {op : FilterOp}
    (h : applyOp f op = some g) : FilterLE f g := by
  cases op with
  | insertOp x =>
    rw [applyOp] at h
    have ⟨h1, _⟩ := insertChecked_some h
    subst h1
    exact filterLE_insert f x
  | insertBulkOp xs => exact insertBulkChecked_le h
  | checkOp x =>
    rw [applyOp] at h
    cases hc : f.CheckChecked x with
    | none => rw [hc] at h; cases h
    | some b =>
      rw [hc] at h
      cases h
      exact filterLE_refl _

theorem applyOps_le {ops : List FilterOp} :
    ∀ {f g : SplitBlockFilter}, applyOps f ops = some g → FilterLE f g := by
  induction ops with
  | nil =>
    intro f g h
    rw [applyOps, List.foldlM_nil] at h
    cases h
    exact filterLE_refl _
  | cons op ops ih =>
    intro f g h
    rw [applyOps, List.foldlM_cons] at h
    cases hstep : applyOp f op with
    | none => rw [hstep] at h; cases h
    | some f1 =>
      rw [hstep] at h
      exact filterLE_trans (applyOp_le hstep) (ih h)

/-! ### Commutativity of insertion -/

theorem block_insert_comm (b : Block) (u v : Nat) :
    Block.Insert (Block.Insert b u) v = Block.Insert (Block.Insert b v) u := by
  funext i
  simp only [Block.Insert]
  rw [Nat.lor_assoc, Nat.lor_assoc, Nat.lor_comm (wordMask u (salt i))]

theorem insert_eq (f : SplitBlockFilter) (x : Nat) :
    f.Insert x =
      f.set (f.blockIndex x)
        (Block.Insert (f.getD (f.blockIndex x) zeroBlock) (x % 2 ^ 32)) := rfl

theorem insert_comm (f : SplitBlockFilter) (a b : Nat) :
    (f.Insert a).Insert b = (f.Insert b).Insert a := by
  have hia := blockIndex_insert f b a
  have hib := blockIndex_insert f a b
  by_cases hab : f.blockIndex a = f.blockIndex b
  · have hbi : f.blockIndex b = f.blockIndex a := hab.symm
    by_cases hlt : f.blockIndex a < f.length
    · rw [insert_eq (f.Insert a) b, hib, insert_eq (f.Insert b) a, hia,
        insert_eq f a, insert_eq f b]
      rw [hbi, getD_set_self hlt, getD_set_self hlt, List.set_set,
        List.set_set, block_insert_comm]
    · have ha : f.Insert a = f := by
        rw [insert_eq, List.set_eq_of_length_le (by omega)]
      have hb' : f.Insert b = f := by
        rw [insert_eq, List.set_eq_of_length_le (by rw [hbi]; omega)]
      rw [ha, hb', ha]
  · rw [insert_eq (f.Insert a) b, hib, insert_eq (f.Insert b) a, hia,
      insert_eq f a, insert_eq f b]
    rw [getD_set_ne hab, getD_set_ne (Ne.symm hab), List.set_comm _ _ _ hab]

/-! ### Reset lemmas -/

theorem reset_getD (f : SplitBlockFilter) (i : Nat) :
    (f.Reset).getD i zeroBlock = zeroBlock := by
  induction f generalizing i with
  | nil => simp [SplitBlockFilter.Reset]
  | cons b f ih =>
    cases i with
    | zero => simp [SplitBlockFilter.Reset]
    | succ n =>
      have := ih n
      simp only [SplitBlockFilter.Reset, List.map_cons, List.getD_cons_succ] at this ⊢
      exact this

theorem reset_length (f : SplitBlockFilter) : (f.Reset).length = f.length := by
  simp [SplitBlockFilter.Reset]

/-! ### Serialization lemmas -/

theorem bytes_length (b : Block) : (Block.Bytes b).length = 32 := rfl

theorem bytes_drop_32 (b : Block) : (Block.Bytes b).drop 32 = [] := rfl

theorem roundWord {w : Nat} (h : w < 2 ^ 32) :
    wordOfBytes (w % 256) ((w >>> 8) % 256) ((w >>> 16) % 256) ((w >>> 24) % 256) = w := by
  simp only [wordOfBytes, Nat.shiftRight_eq_div_pow, Nat.shiftLeft_eq]
  norm_num
  omega

set_option maxHeartbeats 1000000 in
theorem decode_block (b : Block) (rest : List Nat) (h : BlockWF b) :
    bytesToBlock (Block.Bytes b ++ rest) 0 = b := by
  funext j
  fin_cases j
  · exact roundWord (h 0)
  · exact roundWord (h 1)
  · exact roundWord (h 2)
  · exact roundWord (h 3)
  · exact roundWord (h 4)
  · exact roundWord (h 5)
  · exact roundWord (h 6)
  · exact roundWord (h 7)

theorem bytesToBlock_shift {blk32 : List Nat} (rest : List Nat)
    (h : blk32.length = 32) (i : Nat) :
    bytesToBlock (blk32 ++ rest) (i + 1) = bytesToBlock rest i := by
  have e : ∀ q, 32 ≤ q → (blk32 ++ rest).getD q 0 = rest.getD (q - 32) 0 := by
    intro q hq
    rw [List.getD_append_right _ _ _ _ (by omega), h]
  funext j
  simp only [bytesToBlock]
  rw [e _ (by omega), e _ (by omega), e _ (by omega), e _ (by omega)]
  have e1 : 32 * (i + 1) + 4 * j.val - 32 = 32 * i + 4 * j.val := by omega
  have e2 : 32 * (i + 1) + 4 * j.val + 1 - 32 = 32 * i + 4 * j.val + 1 := by omega
  have e3 : 32 * (i + 1) + 4 * j.val + 2 - 32 = 32 * i + 4 * j.val + 2 := by omega
  have e4 : 32 * (i + 1) + 4 * j.val + 3 - 32 = 32 * i + 4 * j.val + 3 := by omega
  rw [e1, e2, e3, e4]

theorem filterBytes_nil : SplitBlockFilter.Bytes [] = [] := rfl

theorem filterBytes_cons (b : Block) (f : SplitBlockFilter) :
    SplitBlockFilter.Bytes (b :: f) = Block.Bytes b ++ SplitBlockFilter.Bytes f := rfl

theorem filterBytes_length (f : SplitBlockFilter) :
    (SplitBlockFilter.Bytes f).length = 32 * f.length := by
  induction f with
  | nil => rfl
  | cons b f ih =>
    rw [filterBytes_cons, List.length_append, bytes_length, ih, List.length_cons]
    ring

theorem wf_getD {f : SplitBlockFilter} (h : FilterWF f) (i : Nat) :
    BlockWF (f.getD i zeroBlock) := by
  by_cases hi : i < f.length
  · rw [List.getD_eq_getElem?_getD, List.getElem?_eq_getElem hi, Option.getD_some]
    exact h _ (List.getElem_mem hi)
  · rw [List.getD_eq_getElem?_getD, List.getElem?_eq_none (by omega), Option.getD_none]
    exact zeroBlock_wf

theorem make_bytes {f : SplitBlockFilter} (h : FilterWF f) :
    MakeSplitBlockFilter (SplitBlockFilter.Bytes f) = f := by
  induction f with
  | nil => rfl
  | cons b f ih =>
    have hwf : FilterWF f := fun x hx => h x (List.mem_cons_of_mem _ hx)
    have hlen : (SplitBlockFilter.Bytes (b :: f)).length / 32 = f.length + 1 := by
      rw [filterBytes_length, List.length_cons]
      omega
    have hlenf : (SplitBlockFilter.Bytes f).length / 32 = f.length := by
      rw [filterBytes_length]
      omega
    simp only [MakeSplitBlockFilter]
    rw [hlen, List.range_succ_eq_map, List.map_cons, List.map_map]
    have hhead : bytesToBlock (SplitBlockFilter.Bytes (b :: f)) 0 = b := by
      rw [filterBytes_cons]
      exact decode_block b _ (h b (List.mem_cons_self b f))
    have hstep : ∀ i : Nat,
        (bytesToBlock (SplitBlockFilter.Bytes (b :: f)) ∘ Nat.succ) i
          = bytesToBlock (SplitBlockFilter.Bytes f) i := by
      intro i
      simp only [Function.comp]
      rw [filterBytes_cons]
      exact bytesToBlock_shift _ (bytes_length b) i
    rw [hhead, List.map_congr_left fun i _ => hstep i]
    have := ih hwf
    simp only [MakeSplitBlockFilter] at this
    rw [hlenf] at this
    rw [this]

theorem bytes_drop_take {f : SplitBlockFilter} :
    ∀ {idx : Nat}, idx < f.length →
      ((SplitBlockFilter.Bytes f).drop (32 * idx)).take 32
        = Block.Bytes (f.getD idx zeroBlock) := by
  induction f with
  | nil => intro idx h; simp at h
  | cons b f ih =>
    intro idx h
    cases idx with
    | zero =>
      rw [filterBytes_cons, Nat.mul_zero, List.drop_zero, List.getD_cons_zero]
      calc (Block.Bytes b ++ SplitBlockFilter.Bytes f).take 32
          = (Block.Bytes b ++ SplitBlockFilter.Bytes f).take (Block.Bytes b).length := by
            rw [bytes_length]
        _ = Block.Bytes b := List.take_left _ _
    | succ n =>
      rw [filterBytes_cons, List.getD_cons_succ]
      have hd : (Block.Bytes b ++ SplitBlockFilter.Bytes f).drop (32 * (n + 1))
          = (SplitBlockFilter.Bytes f).drop (32 * n) := by
        have h32 : 32 * (n + 1) = 32 + 32 * n := by ring
        rw [h32, ← List.drop_drop]
        congr 1
      rw [hd]
      exact ih (by simp at h; omega)

/-! ### Well-formedness preservation and bulk insertion -/

theorem filterWF_insert {f : SplitBlockFilter} (h : FilterWF f) (x : Nat) :
    FilterWF (f.Insert x) := by
  intro b hb
  rcases List.mem_or_eq_of_mem_set hb with hmem | heq
  · exact h b hmem
  · subst heq
    exact blockWF_insert (wf_getD h _) _

theorem filterWF_insertBulk {xs : List Nat} :
    ∀ {f : SplitBlockFilter}, FilterWF f → FilterWF (f.InsertBulk xs) := by
  induction xs with
  | nil => intro f h; exact h
  | cons y ys ih =>
    intro f h
    rw [SplitBlockFilter.InsertBulk, List.foldl_cons]
    exact ih (filterWF_insert h y)

theorem filterWF_reset (f : SplitBlockFilter) : FilterWF f.Reset := by
  intro b hb
  rw [SplitBlockFilter.Reset, List.mem_map] at hb
  rcases hb with ⟨_, _, rfl⟩
  exact zeroBlock_wf

theorem length_insertBulk (xs : List Nat) :
    ∀ f : SplitBlockFilter, (f.InsertBulk xs).length = f.length := by
  induction xs with
  | nil => intro f; rfl
  | cons y ys ih =>
    intro f
    rw [SplitBlockFilter.InsertBulk, List.foldl_cons]
    have := ih (f.Insert y)
    rw [SplitBlockFilter.InsertBulk] at this
    rw [this, length_insert]

theorem filterLE_insertBulk (xs : List Nat) :
    ∀ f : SplitBlockFilter, FilterLE f (f.InsertBulk xs) := by
  induction xs with
  | nil => intro f; exact filterLE_refl f
  | cons y ys ih =>
    intro f
    rw [SplitBlockFilter.InsertBulk, List.foldl_cons]
    have := ih (f.Insert y)
    rw [SplitBlockFilter.InsertBulk] at this
    exact filterLE_trans (filterLE_insert f y) this

theorem check_insertBulk_mem {x : Nat} (hx : x < 2 ^ 64) :
    ∀ {xs : List Nat} {f : SplitBlockFilter}, x ∈ xs → 0 < f.length →
      f.length < 2 ^ 31 → (f.InsertBulk xs).Check x = true := by
  intro xs
  induction xs with
  | nil => intro f h; simp at h
  | cons y ys ih =>
    intro f hmem h0 hlen
    rw [SplitBlockFilter.InsertBulk, List.foldl_cons]
    by_cases hys : x ∈ ys
    · have h0' : 0 < (f.Insert y).length := by rw [length_insert]; exact h0
      have hlen' : (f.Insert y).length < 2 ^ 31 := by rw [length_insert]; exact hlen
      exact ih hys h0' hlen'
    · have hxy : x = y := by
        rcases List.mem_cons.mp hmem with h | h
        · exact h
        · exact absurd h hys
      subst hxy
      have hidx : f.blockIndex x < f.length :=
        fasthash1x64_lt hx h0 hlen
      have hself : (f.Insert x).Check x = true := filter_check_insert_self hidx
      exact check_mono_filter (filterLE_insertBulk ys (f.Insert x)) hself

/-! ### Disk probe agreement -/

theorem diskBlockIndex_bytes (f : SplitBlockFilter) (x : Nat) :
    diskBlockIndex (32 * f.length) x = f.blockIndex x := by
  rw [diskBlockIndex, Nat.mul_div_cancel_left _ (by norm_num : 0 < 32)]
  rfl

theorem probe_eq_check {f : SplitBlockFilter} (scratch : Block) {x : Nat}
    (hwf : FilterWF f) (h0 : 0 < f.length) (hlen : f.length < 2 ^ 31)
    (hx : x < 2 ^ 64) :
    CheckSplitBlock scratch (SplitBlockFilter.Bytes f) (32 * f.length) x
      = (f.Check x, false) := by
  have hidx : f.blockIndex x < f.length := fasthash1x64_lt hx h0 hlen
  have hidx32 : f.blockIndex x < 2 ^ 32 := fasthash1x64_lt_2_32 x _
  simp only [CheckSplitBlock, diskBlockIndex_bytes]
  have hoff : 32 * f.blockIndex x % 2 ^ 64 = 32 * f.blockIndex x := by omega
  rw [hoff, bytes_drop_take hidx, bytes_length]
  have hdec := decode_block (f.getD (f.blockIndex x) zeroBlock) []
    (wf_getD hwf (f.blockIndex x))
  rw [List.append_nil] at hdec
  rw [bytes_drop_32, List.append_nil, hdec]
  simp only [SplitBlockFilter.Check]
  norm_num

/-! ## Claims -/

/-- C1.  No false negatives: inserting a 64-bit hash `x` into a non-empty
filter (an insertion the Go program completes without panicking) makes
`Check x` true immediately, and it stays true after any further sequence of
`Insert`, `InsertBulk` or `Check` calls the program completes — bits are
only ever set, never cleared, except by `Reset`. -/
theorem c1_no_false_negatives (f f' g : SplitBlockFilter) (x : Nat)
    (ops : List FilterOp) (_hne : f ≠ [])
    (h1 : f.InsertChecked x = some f') (h2 : applyOps f' ops = some g) :
    f'.Check x = true ∧ g.Check x = true := by
  obtain ⟨he, hlt⟩ := insertChecked_some h1
  subst he
  have hself : (f.Insert x).Check x = true := filter_check_insert_self hlt
  exact ⟨hself, check_mono_filter (applyOps_le h2) hself⟩

/-- Witness for C1 on a concrete one-block filter: insert hash 0, then run
a further insertion of 1 and a membership probe of 2. -/
theorem c1_witness :
    (SplitBlockFilter.Insert [zeroBlock] 0).Check 0 = true ∧
      ((SplitBlockFilter.Insert [zeroBlock] 0).Insert 1).Check 0 = true :=
  c1_no_false_negatives [zeroBlock] _ _ 0
    [FilterOp.insertOp 1, FilterOp.checkOp 2] (List.cons_ne_nil _ _) rfl rfl

/-- C4.  Block selection: for a 64-bit hash `h` and block count `n`
(positive, representable as a positive `int32`, as the spec's "32-bit
count" stipulates), the selected index is the high 32 bits of the 64-bit
product of the high 32 bits of `h` with `n`; it lies in `[0, n)`; and the
in-memory path (`SplitBlockFilter.Block` with `n = len(f)`) and the disk
path (`CheckSplitBlock` with `n = totalByteLength / 32`) compute the same
index. -/
theorem c4_block_selection (f : SplitBlockFilter) (h n : Nat) (hh : h < 2 ^ 64)
    (h0 : 0 < n) (hn : n < 2 ^ 31) (hf : f.length = n) :
    f.blockIndex h = blockSelectionSpec h n ∧
      blockSelectionSpec h n < n ∧
      diskBlockIndex (32 * n) h = blockSelectionSpec h n := by
  have hspec : blockSelectionSpec h n = h >>> 32 * n / 2 ^ 32 := by
    rw [blockSelectionSpec, Nat.shiftRight_eq_div_pow]
  have h1 : f.blockIndex h = blockSelectionSpec h n := by
    rw [SplitBlockFilter.blockIndex, hf, fasthash1x64_eq hh hn, hspec]
  refine ⟨h1, ?_, ?_⟩
  · have hb := fasthash1x64_lt hh h0 hn
    rw [fasthash1x64_eq hh hn] at hb
    rw [hspec]
    exact hb
  · rw [diskBlockIndex, Nat.mul_div_cancel_left _ (by norm_num : 0 < 32),
      fasthash1x64_eq hh hn, hspec]

/-- Witness for C4 at hash 3 and a one-block filter. -/
theorem c4_witness :
    SplitBlockFilter.blockIndex [zeroBlock] 3 = blockSelectionSpec 3 1 ∧
      blockSelectionSpec 3 1 < 1 ∧
      diskBlockIndex (32 * 1) 3 = blockSelectionSpec 3 1 :=
  c4_block_selection [zeroBlock] 3 1 (by norm_num) (by norm_num) (by norm_num) rfl

/-- C7 counterexample.  The claim says `Check h` is false for every hash
`h` not re-inserted since the `Reset`; but after resetting a one-block
filter and re-inserting only the hash 0, the distinct hash `2 ^ 32`
(never inserted) already checks true — a false positive: both hashes have
the same low 32 bits and land in the same block. -/
theorem c7_counterexample :
    SplitBlockFilter.Check
        (SplitBlockFilter.Insert (SplitBlockFilter.Reset [zeroBlock]) 0)
        (2 ^ 32) = true ∧
      (2 ^ 32 : Nat) ≠ 0 := by
  decide

/-- C7 as amended.  After `Reset()` every block is zero, and — before any
re-insertion — `Check h` is false for every hash `h`; once hashes are
re-inserted, only the no-false-negative guarantee holds and `Check` may
answer true for hashes that were never inserted (false positives). -/
theorem c7_amended (f : SplitBlockFilter) (x : Nat) (_h : f ≠ []) :
    (∀ b ∈ f.Reset, b = zeroBlock) ∧ (f.Reset).Check x = false := by
  constructor
  · intro b hb
    rw [SplitBlockFilter.Reset, List.mem_map] at hb
    rcases hb with ⟨_, _, rfl⟩
    rfl
  · rw [SplitBlockFilter.Check, reset_getD]
    exact Block.check_zero _

/-- Witness for the amended C7 on a concrete one-block filter. -/
theorem c7_amended_witness :
    (SplitBlockFilter.Reset [zeroBlock]).Check 5 = false :=
  (c7_amended [zeroBlock] 5 (List.cons_ne_nil _ _)).2

/-- C10.  On a zero-length filter the block-selection reduction yields
index 0 for every hash, and `Insert` and `Check` hit an out-of-range index
(the Go program panics: the checked operations return `none`), while
`Reset` is a no-op; on a filter with at least one block (of in-range
`int32` length, probing a 64-bit hash) the operations do not fail. -/
theorem c10_zero_length (x : Nat) :
    SplitBlockFilter.blockIndex ([] : SplitBlockFilter) x = 0 ∧
      SplitBlockFilter.InsertChecked [] x = none ∧
      SplitBlockFilter.CheckChecked [] x = none ∧
      SplitBlockFilter.Reset ([] : SplitBlockFilter) = [] ∧
      (∀ f : SplitBlockFilter, f ≠ [] → f.length < 2 ^ 31 → x < 2 ^ 64 →
        (f.InsertChecked x).isSome = true ∧ (f.CheckChecked x).isSome = true) := by
  have hz : SplitBlockFilter.blockIndex ([] : SplitBlockFilter) x = 0 := by
    rw [SplitBlockFilter.blockIndex]
    exact fasthash1x64_scale_zero x
  refine ⟨hz, ?_, ?_, rfl, ?_⟩
  · simp [SplitBlockFilter.InsertChecked, hz]
  · simp [SplitBlockFilter.CheckChecked, hz]
  · intro f hne hlen hx
    have h0 : 0 < f.length := List.length_pos.mpr hne
    have hidx : f.blockIndex x < f.length := fasthash1x64_lt hx h0 hlen
    constructor
    · simp [SplitBlockFilter.InsertChecked, hidx]
    · simp [SplitBlockFilter.CheckChecked, hidx]

/-- Witness for C10: the empty filter's checked insert fails; a one-block
filter's checked insert succeeds. -/
theorem c10_witness :
    SplitBlockFilter.InsertChecked ([] : SplitBlockFilter) 5 = none ∧
      (SplitBlockFilter.InsertChecked [zeroBlock] 5).isSome = true :=
  ⟨(c10_zero_length 5).2.1,
    ((c10_zero_length 5).2.2.2.2 [zeroBlock] (List.cons_ne_nil _ _)
      (by norm_num) (by norm_num)).1⟩

/-- C5.  Bulk equivalence: on a freshly reset filter, `InsertBulk xs`
yields the identical byte image as sequentially inserting the elements of
any permutation `ys` of `xs` into an equally sized freshly reset filter. -/
theorem c5_bulk_equivalence (f : SplitBlockFilter) (xs ys : List Nat)
    (hperm : xs.Perm ys) :
    ((f.Reset).InsertBulk xs).Bytes
      = (ys.foldl SplitBlockFilter.Insert f.Reset).Bytes := by
  have hfold : xs.foldl SplitBlockFilter.Insert f.Reset
      = ys.foldl SplitBlockFilter.Insert f.Reset :=
    hperm.foldl_eq' (fun a _ b _ g => insert_comm g a b) f.Reset
  rw [SplitBlockFilter.InsertBulk, hfold]

/-- Witness for C5: bulk-inserting `[1, 2]` equals sequentially inserting
the permutation `[2, 1]`. -/
theorem c5_witness :
    ((SplitBlockFilter.Reset [zeroBlock]).InsertBulk [1, 2]).Bytes
      = ([2, 1].foldl SplitBlockFilter.Insert
          (SplitBlockFilter.Reset [zeroBlock])).Bytes :=
  c5_bulk_equivalence [zeroBlock] [1, 2] [2, 1] (by decide)

/-- C6.  Round-trip: reinterpreting the serialized bytes of a (well-formed:
all words are 32-bit values, which Go's `uint32` representation
guarantees) filter yields the filter itself — in particular the same number
of blocks and the same `Check` answer for every hash. -/
theorem c6_round_trip (f : SplitBlockFilter) (hwf : FilterWF f) :
    MakeSplitBlockFilter (f.Bytes) = f ∧
      (MakeSplitBlockFilter (f.Bytes)).length = f.length ∧
      ∀ x, (MakeSplitBlockFilter (f.Bytes)).Check x = f.Check x := by
  have h := make_bytes hwf
  exact ⟨h, by rw [h], fun x => by rw [h]⟩

/-- Witness for C6 on a concrete one-block filter holding hash 7. -/
theorem c6_witness :
    MakeSplitBlockFilter ((SplitBlockFilter.Insert [zeroBlock] 7).Bytes)
      = SplitBlockFilter.Insert [zeroBlock] 7 :=
  (c6_round_trip (SplitBlockFilter.Insert [zeroBlock] 7)
    (by unfold FilterWF BlockWF; decide)).1

/-- C2 counterexample.  The claim says a byte length of 33 (not a multiple
of 32) must make `MakeSplitBlockFilter` / `CheckSplitBlock` fail
deterministically; but the code validates nothing: on a 33-byte buffer
`MakeSplitBlockFilter` silently truncates to `33 / 32 = 1` block (the same
filter as from the 32-byte prefix) and `CheckSplitBlock` completes its read
of block 0 and returns a result with no error. -/
theorem c2_counterexample :
    (MakeSplitBlockFilter (List.replicate 33 0)).length = 1 ∧
      MakeSplitBlockFilter (List.replicate 33 0)
        = MakeSplitBlockFilter (List.replicate 32 0) ∧
      CheckSplitBlock zeroBlock (List.replicate 33 0) 33 5 = (false, false) := by
  refine ⟨rfl, by decide, by decide⟩

/-- C2 as amended.  Neither boundary function validates the byte length: on
any 33-byte buffer `MakeSplitBlockFilter` yields a 1-block filter equal to
the one built from the buffer's 32-byte prefix (silent truncation), and the
disk probe with byte length 33 reads block 0 in full and reports no error
for every 64-bit hash. -/
theorem c2_amended (data : List Nat) (scratch : Block) (x : Nat)
    (hx : x < 2 ^ 64) (hlen : data.length = 33) :
    (MakeSplitBlockFilter data).length = 1 ∧
      MakeSplitBlockFilter data = MakeSplitBlockFilter (data.take 32) ∧
      (CheckSplitBlock scratch data 33 x).2 = false := by
  have htake : ∀ k : Nat, k < 32 → (data.take 32).getD k 0 = data.getD k 0 := by
    intro k hk
    rw [List.getD_eq_getElem?_getD, List.getElem?_take, if_pos hk,
      ← List.getD_eq_getElem?_getD]
  have htlen : (data.take 32).length = 32 := by
    rw [List.length_take]
    omega
  refine ⟨?_, ?_, ?_⟩
  · simp [MakeSplitBlockFilter, hlen]
  · simp only [MakeSplitBlockFilter, hlen, htlen]
    norm_num
    funext j
    have hj : j.val < 8 := j.isLt
    simp only [bytesToBlock]
    rw [htake _ (by omega), htake _ (by omega), htake _ (by omega),
      htake _ (by omega)]
  · have hidx : diskBlockIndex 33 x = 0 := by
      have h1 := fasthash1x64_lt hx (show 0 < 1 by norm_num) (by norm_num)
      rw [diskBlockIndex]
      norm_num
      omega
    simp only [CheckSplitBlock, hidx]
    norm_num
    omega

/-- Witness for the amended C2 on a concrete 33-byte buffer. -/
theorem c2_amended_witness :
    (MakeSplitBlockFilter (List.replicate 33 7)).length = 1 ∧
      MakeSplitBlockFilter (List.replicate 33 7)
        = MakeSplitBlockFilter ((List.replicate 33 7).take 32) ∧
      (CheckSplitBlock zeroBlock (List.replicate 33 7) 33 5).2 = false :=
  c2_amended (List.replicate 33 7) zeroBlock 5 (by norm_num) (by decide)

/-- C3.  Disk probe matches in-memory: for a well-formed non-empty filter
(of `int32`-representable length) and a 64-bit hash, probing the
serialized bytes with the full byte length returns the in-memory `Check`
answer with no error; in particular, for a filter built by inserting a set
of hashes into a freshly reset filter, the probe answers `(true, nil)` on
every inserted hash. -/
theorem c3_disk_probe (f : SplitBlockFilter) (scratch : Block) (xs : List Nat)
    (x : Nat) (hwf : FilterWF f) (h0 : 0 < f.length) (hlen : f.length < 2 ^ 31)
    (hx : x < 2 ^ 64) :
    CheckSplitBlock scratch (f.Bytes) (32 * f.length) x = (f.Check x, false) ∧
      (x ∈ xs →
        CheckSplitBlock scratch ((f.Reset.InsertBulk xs).Bytes)
          (32 * f.length) x = (true, false)) := by
  constructor
  · exact probe_eq_check scratch hwf h0 hlen hx
  · intro hmem
    have hglen : (f.Reset.InsertBulk xs).length = f.length := by
      rw [length_insertBulk, reset_length]
    have hgwf : FilterWF (f.Reset.InsertBulk xs) :=
      filterWF_insertBulk (filterWF_reset f)
    have hgcheck : (f.Reset.InsertBulk xs).Check x = true :=
      check_insertBulk_mem hx hmem (by rw [reset_length]; exact h0)
        (by rw [reset_length]; exact hlen)
    have hprobe := probe_eq_check scratch hgwf (by rw [hglen]; exact h0)
      (by rw [hglen]; exact hlen) hx
    rw [hglen] at hprobe
    rw [hprobe, hgcheck]

/-- Witness for C3 with a one-block filter and inserted hash 9. -/
theorem c3_witness :
    CheckSplitBlock zeroBlock (SplitBlockFilter.Bytes [zeroBlock]) (32 * 1) 9
      = (SplitBlockFilter.Check [zeroBlock] 9, false) ∧
      CheckSplitBlock zeroBlock
        ((SplitBlockFilter.InsertBulk
          (SplitBlockFilter.Reset [zeroBlock]) [9]).Bytes) (32 * 1) 9
        = (true, false) := by
  have h := c3_disk_probe [zeroBlock] zeroBlock [9] 9
    (by unfold FilterWF BlockWF; decide) (by norm_num) (by norm_num) (by norm_num)
  exact ⟨h.1, h.2 (by decide)⟩

/-- C8 counterexample.  The claim's formula and monotonicity fail once the
64-bit product `uint(numValues) * bitsPerValue` wraps: at `v = 2 ^ 62,
p = 4` the product is `2 ^ 64`, which wraps to 0, so the function returns
0 blocks — smaller than the `2 ^ 55` blocks returned for the smaller count
`v = 2 ^ 61`, and different from `ceil(ceil(v * p / 8) / 32)`. -/
theorem c8_counterexample :
    NumSplitBlocksOf (2 ^ 61) 4 = 2 ^ 55 ∧
      NumSplitBlocksOf (2 ^ 62) 4 = 0 ∧
      (2 ^ 61 : Nat) ≤ 2 ^ 62 ∧
      ¬ NumSplitBlocksOf (2 ^ 61) 4 ≤ NumSplitBlocksOf (2 ^ 62) 4 ∧
      NumSplitBlocksOf (2 ^ 62) 4 ≠ ceilDiv (ceilDiv (2 ^ 62 * 4) 8) 32 := by
  decide

/-- C8 as amended.  As long as the 64-bit bit count `v * p` does not
overflow (`v * p + 7 < 2 ^ 64`), `NumSplitBlocksOf v p` equals
`ceil(ceil(v * p / 8) / 32)`, is 0 at `v = 0`, and is non-decreasing in
both arguments within the non-overflowing range. -/
theorem c8_amended (v p : Nat) (h : v * p + 7 < 2 ^ 64) :
    NumSplitBlocksOf v p = ceilDiv (ceilDiv (v * p) 8) 32 ∧
      NumSplitBlocksOf 0 p = 0 ∧
      (∀ w q : Nat, v ≤ w → p ≤ q → w * q + 7 < 2 ^ 64 →
        NumSplitBlocksOf v p ≤ NumSplitBlocksOf w q) := by
  refine ⟨?_, ?_, ?_⟩
  · simp only [NumSplitBlocksOf, ByteCount, ceilDiv]
    rw [Nat.mod_eq_of_lt (by omega)]
    omega
  · simp [NumSplitBlocksOf, ByteCount]
  · intro w q hv hp hwq
    simp only [NumSplitBlocksOf, ByteCount]
    rw [Nat.mod_eq_of_lt (by omega), Nat.mod_eq_of_lt (by omega)]
    have hm : v * p ≤ w * q := Nat.mul_le_mul hv hp
    have h8 : (v * p + 7) / 8 ≤ (w * q + 7) / 8 := Nat.div_le_div_right (by omega)
    exact Nat.div_le_div_right (by omega)

/-- Witness for the amended C8 at `v = 3, p = 10` (and `w = 4, q = 11` for
the monotonicity part). -/
theorem c8_amended_witness :
    NumSplitBlocksOf 3 10 = ceilDiv (ceilDiv (3 * 10) 8) 32 ∧
      NumSplitBlocksOf 3 10 ≤ NumSplitBlocksOf 4 11 :=
  ⟨(c8_amended 3 10 (by norm_num)).1,
    (c8_amended 3 10 (by norm_num)).2.2 4 11 (by norm_num) (by norm_num)
      (by norm_num)⟩

/-- C9 counterexample.  The claim says the probe's boolean is independent
of the scratch block's prior pool contents because the ranged read fully
overwrites it on every path; but on a short read only the read prefix is
overwritten: probing a 16-byte source (read error, 16 of 32 bytes read)
yields `false` with an all-zero scratch block and `true` with an all-ones
scratch block. -/
theorem c9_counterexample :
    CheckSplitBlock zeroBlock (List.replicate 16 255) 32 0 = (false, true) ∧
      CheckSplitBlock (fun _ => 0xFFFFFFFF) (List.replicate 16 255) 32 0
        = (true, true) ∧
      CheckSplitBlock zeroBlock (List.replicate 16 255) 32 0
        ≠ CheckSplitBlock (fun _ => 0xFFFFFFFF) (List.replicate 16 255) 32 0 := by
  decide

/-- C9 as amended.  Whenever the ranged read is complete — the selected
block lies entirely within the source, so all 32 bytes are read — the
probe's result is independent of the scratch block's prior pool contents;
on a short read the unread suffix of the scratch block can influence the
boolean, which is returned alongside the error. -/
theorem c9_amended (s1 s2 : Block) (src : List Nat) (n x : Nat)
    (h : 32 * diskBlockIndex n x + 32 ≤ src.length) :
    CheckSplitBlock s1 src n x = CheckSplitBlock s2 src n x := by
  have hidx32 : diskBlockIndex n x < 2 ^ 32 := fasthash1x64_lt_2_32 x _
  simp only [CheckSplitBlock]
  have hoff : 32 * diskBlockIndex n x % 2 ^ 64 = 32 * diskBlockIndex n x := by
    omega
  rw [hoff]
  have hrlen : ((src.drop (32 * diskBlockIndex n x)).take 32).length = 32 := by
    rw [List.length_take, List.length_drop]
    omega
  rw [hrlen, bytes_drop_32 s1, bytes_drop_32 s2]

/-- Witness for the amended C9: a full 32-byte source gives the same probe
answer for two different scratch blocks. -/
theorem c9_amended_witness :
    CheckSplitBlock zeroBlock (List.replicate 32 7) 32 3
      = CheckSplitBlock (fun _ => 5) (List.replicate 32 7) 32 3 :=
  c9_amended zeroBlock (fun _ => 5) (List.replicate 32 7) 32 3 (by decide)

end ParquetBloom
